import Mathlib

/-!
Shallow embedding of `frame/support/src/storage/bounded_vec.rs`.

The Rust type `BoundedVec<T, S>(Vec<T>, PhantomData<S>)` wraps a vector
together with a type-level bound `S : Get<u32>`. The bound is looked up
at the point of use via `S::get()`, never stored per value; we therefore
model a bounded vector as a structure holding just the element list, and
pass the bound `N : Nat` to every operation that consults `S::get()`.

A Rust panic is modelled as `Option.none`; `Result<A, ()>` is modelled as
`Except Unit A`. In-place mutation (`&mut self`) is modelled by returning
the new state; a fallible in-place mutator returns the pair of its
`Result` and the new state, the error branch returning the state it was
given (the Rust original leaves `self` untouched there).
-/

set_option autoImplicit false

universe u

/-- Model of `BoundedVec<T, S>`: the `Vec<T>` field. The `PhantomData<S>`
field carries no data and the bound is supplied per operation. -/
structure BoundedVec (T : Type u) where
  toList : List T
  deriving DecidableEq

namespace BoundedVec

variable {T : Type u}

/-- Model of `BoundedVec::unchecked_from`: wrap a vector with no check. -/
def unchecked_from (t : List T) : BoundedVec T :=
  ⟨t⟩

/-- Model of `BoundedVec::into_inner`: consume self, return the inner vector. -/
def into_inner (v : BoundedVec T) : List T :=
  v.toList

/-- Model of `Vec::remove` from the standard library: panics (`none`) if
`index` is out of bounds, otherwise returns the removed element together
with the vector with the element at `index` removed and later elements
shifted left. -/
def vecRemove (l : List T) (index : Nat) : Option (T × List T) :=
  if h : index < l.length then
    some (l.get ⟨index, h⟩, l.eraseIdx index)
  else
    none

/-- Model of `Vec::swap_remove` from the standard library: panics (`none`)
if `index` is out of bounds, otherwise returns the removed element together
with the vector where the slot at `index` was filled by the former last
element, which is then dropped. -/
def vecSwapRemove (l : List T) (index : Nat) : Option (T × List T) :=
  if h : index < l.length then
    some (l.get ⟨index, h⟩,
      (l.set index (l.getLast (List.ne_nil_of_length_pos (Nat.lt_of_le_of_lt
        (Nat.zero_le index) h)))).dropLast)
  else
    none

/-- Model of `BoundedVec::remove`: calls `Vec::remove` and discards the
removed element, keeping only the new state (or the panic). -/
def remove (v : BoundedVec T) (index : Nat) : Option (BoundedVec T) :=
  match vecRemove v.toList index with
  | some p => some ⟨p.2⟩
  | none => none

/-- Model of `BoundedVec::swap_remove`: calls `Vec::swap_remove` and
discards the removed element, keeping only the new state (or the panic). -/
def swap_remove (v : BoundedVec T) (index : Nat) : Option (BoundedVec T) :=
  match vecSwapRemove v.toList index with
  | some p => some ⟨p.2⟩
  | none => none

/-- Model of `BoundedVec::retain`: `Vec::retain`, keeping the elements
satisfying the predicate in order. -/
def retain (v : BoundedVec T) (f : T → Bool) : BoundedVec T :=
  ⟨v.toList.filter f⟩

/-- Model of `BoundedVec::bound`, i.e. `S::get() as usize`: the bound `N`
threaded through explicitly. -/
def bound (N : Nat) : Nat :=
  N

/-- Model of `BoundedVec::try_mutate`: mutate the inner vector arbitrarily,
then return `some` of the result iff the new length is within the bound. -/
def try_mutate (N : Nat) (v : BoundedVec T) (mutate : List T → List T) :
    Option (BoundedVec T) :=
  if (mutate v.toList).length ≤ bound N then
    some ⟨mutate v.toList⟩
  else
    none

/-- Model of `BoundedVec::try_insert`: if `len < bound`, perform
`Vec::insert` (which panics — `none` — when `index > len`) and return
`Ok`; otherwise return `Err` with the vector untouched. -/
def try_insert (N : Nat) (v : BoundedVec T) (index : Nat) (element : T) :
    Option (Except Unit Unit × BoundedVec T) :=
  if v.toList.length < bound N then
    if index ≤ v.toList.length then
      some (.ok (), ⟨v.toList.insertIdx index element⟩)
    else
      none
  else
    some (.error (), v)

/-- Model of `BoundedVec::try_push`: if `len < bound`, push the element at
the end and return `Ok`; otherwise return `Err` with the vector untouched. -/
def try_push (N : Nat) (v : BoundedVec T) (element : T) :
    Except Unit Unit × BoundedVec T :=
  if v.toList.length < bound N then
    (.ok (), ⟨v.toList ++ [element]⟩)
  else
    (.error (), v)

/-- Model of `Default for BoundedVec`: the empty vector. -/
def defaultBV : BoundedVec T :=
  ⟨[]⟩

/-- Model of `TryFrom<Vec<T>> for BoundedVec<T, S>`: succeeds iff the
length is within the bound; the success value wraps the given vector. -/
def try_from (N : Nat) (t : List T) : Except Unit (BoundedVec T) :=
  if t.length ≤ bound N then
    .ok ⟨t⟩
  else
    .error ()

/-- The invariant of `BoundedVec` for bound `N`: the length never exceeds
the bound. -/
def invariant (N : Nat) (v : BoundedVec T) : Prop :=
  v.toList.length ≤ N

instance (N : Nat) (v : BoundedVec T) : Decidable (invariant N v) := by
  unfold invariant; infer_instance

end BoundedVec

/-!
Model of the length-prefixed encoding convention. The encode/decode
machinery itself lives in the external `codec` crate, outside this
repository; the spec describes it as a self-delimiting compact count
prefix followed by the concatenated element encodings, with decode-length
failing on a malformed or truncated prefix. We model the compact integer
format concretely after the SCALE compact encoding of `u32` that the
crate uses. Bytes are modelled as natural numbers below 256.
-/

/-- Modelled from the spec: the self-delimiting compact encoding of a
count (the SCALE compact encoding of a `u32`). Values below `2 ^ 6` take
one byte, below `2 ^ 14` two bytes, below `2 ^ 30` four bytes, and larger
`u32` values a marker byte followed by four little-endian bytes. -/
def compactEncode (n : Nat) : List Nat :=
  if n < 2 ^ 6 then
    [n * 4]
  else if n < 2 ^ 14 then
    [(n * 4 + 1) % 256, (n * 4 + 1) / 256]
  else if n < 2 ^ 30 then
    [(n * 4 + 2) % 256, (n * 4 + 2) / 256 % 256,
      (n * 4 + 2) / 65536 % 256, (n * 4 + 2) / 16777216 % 256]
  else
    [3, n % 256, n / 256 % 256, n / 65536 % 256, n / 16777216 % 256]

/-- Modelled from the spec: decoding the compact count prefix from a byte
buffer, returning the count and the remaining bytes, or `none` on a
malformed or truncated prefix (including the non-canonical ranges the
SCALE decoder rejects). -/
def compactDecode : List Nat → Option (Nat × List Nat)
  | [] => none
  | b0 :: rest =>
    if b0 % 4 = 0 then
      some (b0 / 4, rest)
    else if b0 % 4 = 1 then
      match rest with
      | b1 :: r =>
        if 63 < (b0 + b1 * 256) / 4 ∧ (b0 + b1 * 256) / 4 ≤ 16383 then
          some ((b0 + b1 * 256) / 4, r)
        else
          none
      | [] => none
    else if b0 % 4 = 2 then
      match rest with
      | b1 :: b2 :: b3 :: r =>
        if 16383 < (b0 + b1 * 256 + b2 * 65536 + b3 * 16777216) / 4 ∧
            (b0 + b1 * 256 + b2 * 65536 + b3 * 16777216) / 4 ≤ 2 ^ 30 - 1 then
          some ((b0 + b1 * 256 + b2 * 65536 + b3 * 16777216) / 4, r)
        else
          none
      | _ => none
    else
      if b0 / 4 = 0 then
        match rest with
        | b1 :: b2 :: b3 :: b4 :: r =>
          if 2 ^ 30 - 1 < b1 + b2 * 256 + b3 * 65536 + b4 * 16777216 then
            some (b1 + b2 * 256 + b3 * 65536 + b4 * 16777216, r)
          else
            none
        | _ => none
      else
        none

/-- Modelled from the spec: the encoding of an unbounded sequence, the
compact-encoded element count followed by the element encodings
concatenated, for an arbitrary element encoder `enc`. -/
def vecEncode {T : Type u} (enc : T → List Nat) (l : List T) : List Nat :=
  compactEncode l.length ++ (l.map enc).flatten

/-- Modelled from the spec: `PhantomData` encodes to no bytes at all. -/
def phantomDataEncode : List Nat :=
  []

/-- Model of the derived `Encode` for `BoundedVec`: the tuple-struct
fields encoded in order, the inner vector followed by the `PhantomData`
marker (which contributes nothing). -/
def bvEncode {T : Type u} (enc : T → List Nat) (v : BoundedVec T) : List Nat :=
  vecEncode enc v.toList ++ phantomDataEncode

/-- Modelled from the spec: `DecodeLength` for an unbounded sequence reads
only the compact count prefix and propagates a malformed or truncated
prefix as an error. It never consults an element decoder. -/
def vecDecodeLength (self_encoded : List Nat) : Except Unit Nat :=
  match compactDecode self_encoded with
  | some p => .ok p.1
  | none => .error ()

/-- Model of `codec::DecodeLength for BoundedVec`: the stored bytes are
just those of the inner vector, so the unbounded implementation is reused. -/
def bvDecodeLength (self_encoded : List Nat) : Except Unit Nat :=
  vecDecodeLength self_encoded

/-!
Model of the append-optimized storage facade. The byte store is external:
we model a value store as the optional byte buffer at the single key, a
map store as a function from keys to optional buffers, and a double-map
store as a function from key pairs to optional buffers.
-/

/-- Modelled from the spec: the store's decode-length capability, an
`Option`-valued count. The repository's storage layer (outside this file's
source) reads the stored bytes and converts the decode result to an
option, so both an absent value and an undecodable prefix yield `none`. -/
def storeDecodeLen (stored : Option (List Nat)) : Option Nat :=
  match stored with
  | none => none
  | some bytes =>
    match compactDecode bytes with
    | some p => some p.1
    | none => none

/-- Modelled from the spec: the store's raw append-bytes primitive,
`sp_io::storage::append`. It concatenates the element bytes to the stored
buffer while incrementing the leading compact count, creating the buffer
with count one when absent. Behaviour on an undecodable existing buffer is
unspecified by the spec; we model it as rewriting the buffer to a fresh
one-element encoding. -/
def appendRaw (stored : Option (List Nat)) (elementBytes : List Nat) : List Nat :=
  match stored with
  | none => compactEncode 1 ++ elementBytes
  | some bytes =>
    match compactDecode bytes with
    | some p => compactEncode (p.1 + 1) ++ p.2 ++ elementBytes
    | none => compactEncode 1 ++ elementBytes

/-- Model of `TryAppendValue::try_append` for a storage value: read the
current count with `decode_len().unwrap_or_default()`, and if it is below
the bound, append the encoded item through the raw store primitive and
return `Ok`; otherwise return `Err` and leave the store untouched. The
first component is the returned `Result`, the second the store state after
the call. -/
def try_append_value (N : Nat) (st : Option (List Nat)) (itemBytes : List Nat) :
    Except Unit Unit × Option (List Nat) :=
  if (storeDecodeLen st).getD 0 < BoundedVec.bound N then
    (.ok (), some (appendRaw st itemBytes))
  else
    (.error (), st)

/-- Model of `TryAppendMap::try_append` for a storage map: the same
algorithm keyed by one key, the store being a function from keys to
optional buffers. -/
def try_append_map {K : Type} [DecidableEq K] (N : Nat)
    (st : K → Option (List Nat)) (key : K) (itemBytes : List Nat) :
    Except Unit Unit × (K → Option (List Nat)) :=
  if (storeDecodeLen (st key)).getD 0 < BoundedVec.bound N then
    (.ok (), fun k => if k = key then some (appendRaw (st key) itemBytes) else st k)
  else
    (.error (), st)

/-- Model of `TryAppendDoubleMap::try_append` for a storage double map:
the same algorithm keyed by a pair of keys. -/
def try_append_double_map {K1 K2 : Type} [DecidableEq K1] [DecidableEq K2] (N : Nat)
    (st : K1 → K2 → Option (List Nat)) (key1 : K1) (key2 : K2) (itemBytes : List Nat) :
    Except Unit Unit × (K1 → K2 → Option (List Nat)) :=
  if (storeDecodeLen (st key1 key2)).getD 0 < BoundedVec.bound N then
    (.ok (), fun k1 k2 =>
      if k1 = key1 ∧ k2 = key2 then some (appendRaw (st key1 key2) itemBytes) else st k1 k2)
  else
    (.error (), st)

/-- Model of `MaxEncodedLen` saturating `usize` arithmetic: the maximum
value of a 64-bit `usize`. -/
def USIZE_MAX : Nat :=
  2 ^ 64 - 1

/-- Model of `usize::saturating_add`. -/
def satAdd (a b : Nat) : Nat :=
  min (a + b) USIZE_MAX

/-- Model of `usize::saturating_mul`. -/
def satMul (a b : Nat) : Nat :=
  min (a * b) USIZE_MAX

/-- Modelled from the spec: `Compact(n).encoded_size()`, the byte length
of the compact encoding of the count. -/
def compactEncodedSize (n : Nat) : Nat :=
  if n < 2 ^ 6 then 1
  else if n < 2 ^ 14 then 2
  else if n < 2 ^ 30 then 4
  else 5

/-- Model of `MaxEncodedLen for BoundedVec`: the size of the compact
encoding of the bound, saturating-added to the bound saturating-times the
worst-case element size `E`. -/
def max_encoded_len (N E : Nat) : Nat :=
  satAdd (compactEncodedSize N) (satMul (BoundedVec.bound N) E)

/-- Iterating `try_push` of a fixed element starting from the default
(empty) bounded vector, keeping the state returned by each call; a failed
call returns the state it was given. -/
def pushRepeat {T : Type u} (N : Nat) (x : T) : Nat → BoundedVec T
  | 0 => BoundedVec.defaultBV
  | k + 1 => (BoundedVec.try_push N (pushRepeat N x k) x).2

/-- Model of `PartialEq for BoundedVec` restricted to one bound parameter:
compares the inner vectors; the bound takes no part. -/
def bvBeq {T : Type u} [BEq T] (a b : BoundedVec T) : Bool :=
  a.toList == b.toList

/-- Model of the `PartialEq` comparison of a `BoundedVec` against a plain
`Vec` of the same element type: compares the inner vector to it. -/
def bvBeqVec {T : Type u} [BEq T] (a : BoundedVec T) (l : List T) : Bool :=
  a.toList == l

/-!
Helper lemmas.
-/

/-- The length after `k` repeated pushes with bound `N` is `min k N`. -/
theorem pushRepeat_length {T : Type u} (N : Nat) (x : T) (k : Nat) :
    (pushRepeat N x k).toList.length = min k N := by
  induction k with
  | zero => simp [pushRepeat, BoundedVec.defaultBV]
  | succ k ih =>
    unfold pushRepeat BoundedVec.try_push BoundedVec.bound
    split
    · rename_i hlt
      rw [ih] at hlt
      dsimp only
      simp only [List.length_append, List.length_cons, List.length_nil]
      rw [ih]
      omega
    · rename_i hge
      rw [ih] at hge
      dsimp only
      rw [ih]
      omega

/-- Decoding a compact prefix undoes encoding it and leaves the remaining
bytes untouched, for any count that fits a `u32`. -/
theorem compactDecode_compactEncode (n : Nat) (h : n < 2 ^ 32) (rest : List Nat) :
    compactDecode (compactEncode n ++ rest) = some (n, rest) := by
  unfold compactEncode
  split
  · rename_i h1
    simp only [List.cons_append, List.nil_append, compactDecode]
    have e0 : n * 4 % 4 = 0 := by omega
    have e1 : n * 4 / 4 = n := by omega
    rw [if_pos e0, e1]
  · split
    · rename_i h1 h2
      simp only [List.cons_append, List.nil_append, compactDecode]
      have e0 : ¬ (n * 4 + 1) % 256 % 4 = 0 := by omega
      have e1 : (n * 4 + 1) % 256 % 4 = 1 := by omega
      rw [if_neg e0, if_pos e1]
      have e2 : ((n * 4 + 1) % 256 + (n * 4 + 1) / 256 * 256) / 4 = n := by omega
      rw [e2, if_pos (by omega)]
    · split
      · rename_i h1 h2 h3
        simp only [List.cons_append, List.nil_append, compactDecode]
        have e0 : ¬ (n * 4 + 2) % 256 % 4 = 0 := by omega
        have e1 : ¬ (n * 4 + 2) % 256 % 4 = 1 := by omega
        have e2 : (n * 4 + 2) % 256 % 4 = 2 := by omega
        rw [if_neg e0, if_neg e1, if_pos e2]
        have e3 : ((n * 4 + 2) % 256 + (n * 4 + 2) / 256 % 256 * 256 +
            (n * 4 + 2) / 65536 % 256 * 65536 +
            (n * 4 + 2) / 16777216 % 256 * 16777216) / 4 = n := by omega
        rw [e3, if_pos (by omega)]
      · rename_i h1 h2 h3
        simp only [List.cons_append, List.nil_append, compactDecode]
        norm_num
        have e3 : n % 256 + n / 256 % 256 * 256 + n / 65536 % 256 * 65536 +
            n / 16777216 % 256 * 16777216 = n := by omega
        rw [e3]
        exact ⟨by omega, rfl⟩

/-!
Claims.
-/

/-- Claim C1: for every bound `N`, every value produced through the
validated construction and mutation surface (`try_from`, default
construction, `try_push`, `try_insert`, `remove`, `swap_remove`, `retain`,
`try_mutate`) satisfies `length ≤ N`: each operation, applied to a value
satisfying the invariant, yields a value (for fallible ones, a success
value, the error branch leaving the value as given) still satisfying it. -/
theorem claim_C1_invariant {T : Type u} (N : Nat) :
    (∀ (t : List T) (v : BoundedVec T),
        BoundedVec.try_from N t = .ok v → BoundedVec.invariant N v)
    ∧ BoundedVec.invariant N (BoundedVec.defaultBV (T := T))
    ∧ (∀ (v : BoundedVec T) (x : T), BoundedVec.invariant N v →
        BoundedVec.invariant N (BoundedVec.try_push N v x).2)
    ∧ (∀ (v : BoundedVec T) (i : Nat) (x : T) (r : Except Unit Unit × BoundedVec T),
        BoundedVec.invariant N v → BoundedVec.try_insert N v i x = some r →
        BoundedVec.invariant N r.2)
    ∧ (∀ (v w : BoundedVec T) (i : Nat), BoundedVec.invariant N v →
        BoundedVec.remove v i = some w → BoundedVec.invariant N w)
    ∧ (∀ (v w : BoundedVec T) (i : Nat), BoundedVec.invariant N v →
        BoundedVec.swap_remove v i = some w → BoundedVec.invariant N w)
    ∧ (∀ (v : BoundedVec T) (f : T → Bool), BoundedVec.invariant N v →
        BoundedVec.invariant N (BoundedVec.retain v f))
    ∧ (∀ (v w : BoundedVec T) (f : List T → List T),
        BoundedVec.try_mutate N v f = some w → BoundedVec.invariant N w) := by
  refine ⟨?_, ?_, ?_, ?_, ?_, ?_, ?_, ?_⟩
  · intro t v hv
    unfold BoundedVec.try_from BoundedVec.bound at hv
    unfold BoundedVec.invariant
    split at hv
    · rename_i hle
      cases hv
      exact hle
    · cases hv
  · simp [BoundedVec.invariant, BoundedVec.defaultBV]
  · intro v x hv
    unfold BoundedVec.try_push BoundedVec.bound
    unfold BoundedVec.invariant at hv ⊢
    split
    · rename_i hlt
      dsimp only
      simp only [List.length_append, List.length_cons, List.length_nil]
      omega
    · exact hv
  · intro v i x r hv hr
    unfold BoundedVec.try_insert BoundedVec.bound at hr
    unfold BoundedVec.invariant at hv ⊢
    split at hr
    · rename_i hlt
      split at hr
      · rename_i hle
        cases hr
        dsimp only
        simp only [List.length_insertIdx i v.toList hle]
        omega
      · cases hr
    · cases hr
      exact hv
  · intro v w i hv hw
    unfold BoundedVec.remove at hw
    split at hw
    · rename_i p heq
      cases hw
      unfold BoundedVec.vecRemove at heq
      split at heq
      · rename_i hlt
        cases heq
        unfold BoundedVec.invariant at hv ⊢
        dsimp only
        have := List.length_eraseIdx_add_one hlt
        omega
      · cases heq
    · cases hw
  · intro v w i hv hw
    unfold BoundedVec.swap_remove at hw
    split at hw
    · rename_i p heq
      cases hw
      unfold BoundedVec.vecSwapRemove at heq
      split at heq
      · rename_i hlt
        cases heq
        unfold BoundedVec.invariant at hv ⊢
        dsimp only
        simp only [List.length_dropLast, List.length_set]
        omega
      · cases heq
    · cases hw
  · intro v f hv
    unfold BoundedVec.retain
    unfold BoundedVec.invariant at hv ⊢
    exact le_trans (List.length_filter_le f v.toList) hv
  · intro v w f hw
    unfold BoundedVec.try_mutate BoundedVec.bound at hw
    unfold BoundedVec.invariant
    split at hw
    · rename_i hle
      cases hw
      exact hle
    · cases hw

/-- Claim C1, instantiated: pushing onto the empty bounded vector of bound
two yields a value satisfying the invariant. -/
theorem claim_C1_invariant_witness :
    BoundedVec.invariant 2 (BoundedVec.try_push 2 (BoundedVec.defaultBV (T := Nat)) 5).2 :=
  (claim_C1_invariant 2).2.2.1 (BoundedVec.defaultBV (T := Nat)) 5 (by decide)

/-- Claim C5: for every bound `N` and sequence `t`, `try_from` succeeds
iff `length t ≤ N`; on success `into_inner` returns a sequence equal to
`t` (round trip, the elements untouched); on failure an error is
returned. -/
theorem claim_C5_try_from_round_trip {T : Type u} (N : Nat) (t : List T) :
    ((∃ v, BoundedVec.try_from N t = .ok v) ↔ t.length ≤ N)
    ∧ (∀ v, BoundedVec.try_from N t = .ok v → BoundedVec.into_inner v = t)
    ∧ (N < t.length → BoundedVec.try_from N t = .error ()) := by
  unfold BoundedVec.try_from BoundedVec.bound
  refine ⟨⟨?_, ?_⟩, ?_, ?_⟩
  · rintro ⟨v, hv⟩
    split at hv
    · assumption
    · cases hv
  · intro h
    rw [if_pos h]
    exact ⟨⟨t⟩, rfl⟩
  · intro v hv
    split at hv
    · cases hv
      rfl
    · cases hv
  · intro h
    rw [if_neg (by omega)]

/-- Claim C5, instantiated: the round trip at bound two on a two-element
list, and the failure at bound three on a four-element list. -/
theorem claim_C5_witness :
    BoundedVec.into_inner (BoundedVec.unchecked_from [1, 2]) = [1, 2]
    ∧ BoundedVec.try_from 3 [1, 2, 3, 4] = (.error () : Except Unit (BoundedVec Nat)) :=
  ⟨(claim_C5_try_from_round_trip 2 [1, 2]).2.1 (BoundedVec.unchecked_from [1, 2]) rfl,
   (claim_C5_try_from_round_trip 3 [1, 2, 3, 4]).2.2 (by decide)⟩

/-- Claim C6: starting from the default (empty) bounded vector of bound
`N`, repeated `try_push` succeeds on exactly the first `N` attempts, the
length reaching `k + 1` after the `(k + 1)`-th success; the `(N + 1)`-th
attempt fails with the length staying at `N`; in general `try_push`
appends iff `length < N` and returns the state unchanged on failure. -/
theorem claim_C6_try_push {T : Type u} (N : Nat) (x : T) :
    (∀ k, k < N → (BoundedVec.try_push N (pushRepeat N x k) x).1 = .ok ()
      ∧ (pushRepeat N x (k + 1)).toList.length = k + 1)
    ∧ (BoundedVec.try_push N (pushRepeat N x N) x).1 = .error ()
    ∧ (BoundedVec.try_push N (pushRepeat N x N) x).2.toList.length = N
    ∧ (∀ (v : BoundedVec T) (y : T),
        (v.toList.length < N →
          BoundedVec.try_push N v y = (.ok (), ⟨v.toList ++ [y]⟩))
        ∧ (N ≤ v.toList.length →
          BoundedVec.try_push N v y = (.error (), v))) := by
  have hlen := pushRepeat_length (T := T) N x
  refine ⟨?_, ?_, ?_, ?_⟩
  · intro k hk
    constructor
    · unfold BoundedVec.try_push BoundedVec.bound
      rw [if_pos (by rw [hlen]; omega)]
    · rw [hlen]
      omega
  · unfold BoundedVec.try_push BoundedVec.bound
    rw [if_neg (by rw [hlen]; omega)]
  · unfold BoundedVec.try_push BoundedVec.bound
    rw [if_neg (by rw [hlen]; omega)]
    rw [hlen]
    omega
  · intro v y
    constructor
    · intro h
      unfold BoundedVec.try_push BoundedVec.bound
      rw [if_pos h]
    · intro h
      unfold BoundedVec.try_push BoundedVec.bound
      rw [if_neg (by omega)]

/-- Claim C6, instantiated at bound one: the first push from empty
succeeds and the second fails. -/
theorem claim_C6_witness :
    (BoundedVec.try_push 1 (pushRepeat 1 (0 : Nat) 0) 0).1 = .ok ()
    ∧ (BoundedVec.try_push 1 (pushRepeat 1 (0 : Nat) 1) 0).1 = .error () :=
  ⟨((claim_C6_try_push 1 0).1 0 (by decide)).1, (claim_C6_try_push 1 0).2.1⟩

/-- Claim C9: two bounded vectors are equal iff their inner element lists
are equal — equality of the wrapper is determined entirely by the inner
list — and a bounded vector compares equal to a plain list exactly when
its inner list equals it. -/
theorem claim_C9_equality {T : Type u} [DecidableEq T] (a b : BoundedVec T)
    (l : List T) :
    (bvBeq a b = true ↔ a.toList = b.toList)
    ∧ (bvBeq a b = true ↔ a = b)
    ∧ (bvBeqVec a l = true ↔ a.toList = l) := by
  unfold bvBeq bvBeqVec
  refine ⟨by simp, ?_, by simp⟩
  cases a
  cases b
  simp [BoundedVec.mk.injEq]

/-- Claim C10: `remove` and `swap_remove` on the bounded vector discard
the removed element, returning only the new state, while the underlying
vector operations hand the removed element (the one at the index) back;
the bounded result is exactly the sequence the underlying operation
produces. -/
theorem claim_C10_remove_discards {T : Type u} (v : BoundedVec T) (i : Nat)
    (h : i < v.toList.length) :
    ∃ r s : List T,
      BoundedVec.vecRemove v.toList i = some (v.toList.get ⟨i, h⟩, r)
      ∧ BoundedVec.remove v i = some ⟨r⟩
      ∧ r = v.toList.eraseIdx i
      ∧ BoundedVec.vecSwapRemove v.toList i = some (v.toList.get ⟨i, h⟩, s)
      ∧ BoundedVec.swap_remove v i = some ⟨s⟩ := by
  have hne : v.toList ≠ [] := List.ne_nil_of_length_pos (by omega)
  refine ⟨v.toList.eraseIdx i,
    (v.toList.set i (v.toList.getLast hne)).dropLast, ?_, ?_, rfl, ?_, ?_⟩
  · unfold BoundedVec.vecRemove
    rw [dif_pos h]
  · unfold BoundedVec.remove BoundedVec.vecRemove
    rw [dif_pos h]
  · unfold BoundedVec.vecSwapRemove
    rw [dif_pos h]
  · unfold BoundedVec.swap_remove BoundedVec.vecSwapRemove
    rw [dif_pos h]

/-- Claim C10, instantiated on the three-element list at index one. -/
theorem claim_C10_witness :
    ∃ r s : List Nat,
      BoundedVec.vecRemove [10, 20, 30] 1 = some (20, r)
      ∧ BoundedVec.remove (BoundedVec.unchecked_from [10, 20, 30]) 1 = some ⟨r⟩
      ∧ r = [10, 30]
      ∧ BoundedVec.vecSwapRemove [10, 20, 30] 1 = some (20, s)
      ∧ BoundedVec.swap_remove (BoundedVec.unchecked_from [10, 20, 30]) 1 = some ⟨s⟩ :=
  claim_C10_remove_discards (BoundedVec.unchecked_from [10, 20, 30]) 1 (by decide)

/-- Claim C3 counterexample: with bound zero and the empty vector, index
five strictly exceeds the length zero, yet `try_insert` returns the
bounds error (with the vector unchanged) rather than panicking: the bound
check runs before the index check, so the out-of-range abort is not
independent of the bound. -/
theorem claim_C3_cex :
    BoundedVec.try_insert 0 (BoundedVec.defaultBV (T := Nat)) 5 7
        = some (.error (), BoundedVec.defaultBV)
    ∧ BoundedVec.try_insert 0 (BoundedVec.defaultBV (T := Nat)) 5 7 ≠ none := by
  refine ⟨rfl, ?_⟩
  intro hcon
  cases hcon.symm.trans (rfl : BoundedVec.try_insert 0 (BoundedVec.defaultBV (T := Nat)) 5 7
    = some (.error (), BoundedVec.defaultBV))

/-- Claim C3 (amended): `try_insert` fails with the bounds error and
leaves the vector unchanged whenever `length = N`, regardless of the
index; and it aborts via a panic whenever `index > length` and
`length < N` — the bound check runs first, so the out-of-range panic is
reachable only strictly below the bound. -/
theorem claim_C3_try_insert_amended {T : Type u} (N : Nat) (v : BoundedVec T)
    (i : Nat) (x : T) :
    (v.toList.length = N → BoundedVec.try_insert N v i x = some (.error (), v))
    ∧ (v.toList.length < N → v.toList.length < i →
        BoundedVec.try_insert N v i x = none) := by
  unfold BoundedVec.try_insert BoundedVec.bound
  constructor
  · intro h
    rw [if_neg (by omega)]
  · intro h1 h2
    rw [if_pos h1, if_neg (by omega)]

/-- Claim C3, instantiated: at bound three a full vector rejects an
in-range insert with the bounds error, and at bound four an out-of-range
index panics. -/
theorem claim_C3_witness :
    BoundedVec.try_insert 3 (BoundedVec.unchecked_from [1, 2, 3]) 0 9
        = some (.error (), BoundedVec.unchecked_from [1, 2, 3])
    ∧ BoundedVec.try_insert 4 (BoundedVec.unchecked_from [1, 2, 3]) 9 0 = none :=
  ⟨(claim_C3_try_insert_amended 3 (BoundedVec.unchecked_from [1, 2, 3]) 0 9).1 (by decide),
   (claim_C3_try_insert_amended 4 (BoundedVec.unchecked_from [1, 2, 3]) 9 0).2
     (by decide) (by decide)⟩

/-- Claim C7: the encoding of a bounded vector of length `k` is identical
to the encoding of its inner unbounded vector — the compact-encoded count
followed by the concatenated element encodings — and decode-length applied
to those bytes returns exactly `k`, for an arbitrary element encoder and
without consulting any element decoder. -/
theorem claim_C7_encoding {T : Type u} (enc : T → List Nat) (v : BoundedVec T)
    (h : v.toList.length < 2 ^ 32) :
    bvEncode enc v = vecEncode enc v.toList
    ∧ bvEncode enc v = compactEncode v.toList.length ++ (v.toList.map enc).flatten
    ∧ bvDecodeLength (bvEncode enc v) = .ok v.toList.length := by
  refine ⟨by simp [bvEncode, phantomDataEncode],
    by simp [bvEncode, phantomDataEncode, vecEncode], ?_⟩
  unfold bvDecodeLength vecDecodeLength bvEncode vecEncode phantomDataEncode
  rw [List.append_nil, compactDecode_compactEncode v.toList.length h]

/-- Claim C7, instantiated: decoding the length back from the encoding of
a three-element bounded vector yields three. -/
theorem claim_C7_witness :
    bvDecodeLength (bvEncode (fun n : Nat => [n])
      (BoundedVec.unchecked_from [1, 2, 3])) = .ok 3 :=
  (claim_C7_encoding (fun n : Nat => [n])
    (BoundedVec.unchecked_from [1, 2, 3]) (by decide)).2.2

/-- Claim C8: the max-encoded-length calculator returns exactly the byte
size of the compact encoding of the bound `N` plus `N` times the
worst-case element size `E`, computed with saturating arithmetic: the
result is that sum capped at the representable maximum, so for extreme
bounds it saturates instead of overflowing. -/
theorem claim_C8_max_encoded_len (N E : Nat) (_h : N < 2 ^ 32) :
    max_encoded_len N E = min ((compactEncode N).length + N * E) USIZE_MAX
    ∧ (USIZE_MAX ≤ N * E → max_encoded_len N E = USIZE_MAX)
    ∧ ((compactEncode N).length + N * E < USIZE_MAX →
        max_encoded_len N E = (compactEncode N).length + N * E) := by
  have hsize : compactEncodedSize N = (compactEncode N).length := by
    unfold compactEncodedSize compactEncode
    split_ifs <;> simp
  unfold max_encoded_len satAdd satMul USIZE_MAX BoundedVec.bound
  rw [hsize]
  refine ⟨by omega, fun hge => by omega, fun hlt => by omega⟩

/-- Claim C8, instantiated: at bound seven and element size four the
result is the exact sum twenty-nine, and at the full `u32` bound with a
large element size the result saturates at the `usize` maximum. -/
theorem claim_C8_witness :
    max_encoded_len 7 4 = 29 ∧ max_encoded_len 4294967295 (2 ^ 40) = USIZE_MAX := by
  constructor
  · have h := (claim_C8_max_encoded_len 7 4 (by decide)).2.2 (by decide)
    rw [h]
    decide
  · exact (claim_C8_max_encoded_len 4294967295 (2 ^ 40) (by decide)).2.1 (by decide)

/-- Claim C2: for each of the three append-facade variants, when the
current decoded element count for the target key is strictly below the
bound `N`, the call invokes the raw append primitive on exactly that
key's buffer and returns success, other keys untouched; otherwise it
returns the bounds error and the store state is completely unchanged.
Moreover, on a well-formed buffer holding the encoding of a sequence `l`
with `l.length < N`, the appended buffer is exactly the encoding of the
sequence with the new element appended. -/
theorem claim_C2_try_append {T : Type u} {K1 K2 : Type} [DecidableEq K1]
    [DecidableEq K2] (N : Nat) (stv : Option (List Nat))
    (stm : K1 → Option (List Nat)) (std : K1 → K2 → Option (List Nat))
    (k1 : K1) (k2 : K2) (item : List Nat) :
    ((storeDecodeLen stv).getD 0 < N →
      try_append_value N stv item = (.ok (), some (appendRaw stv item)))
    ∧ (N ≤ (storeDecodeLen stv).getD 0 →
      try_append_value N stv item = (.error (), stv))
    ∧ ((storeDecodeLen (stm k1)).getD 0 < N →
      (try_append_map N stm k1 item).1 = .ok ()
      ∧ (try_append_map N stm k1 item).2 k1 = some (appendRaw (stm k1) item)
      ∧ ∀ k, k ≠ k1 → (try_append_map N stm k1 item).2 k = stm k)
    ∧ (N ≤ (storeDecodeLen (stm k1)).getD 0 →
      try_append_map N stm k1 item = (.error (), stm))
    ∧ ((storeDecodeLen (std k1 k2)).getD 0 < N →
      (try_append_double_map N std k1 k2 item).1 = .ok ()
      ∧ (try_append_double_map N std k1 k2 item).2 k1 k2
          = some (appendRaw (std k1 k2) item)
      ∧ ∀ j1 j2, ¬(j1 = k1 ∧ j2 = k2) →
          (try_append_double_map N std k1 k2 item).2 j1 j2 = std j1 j2)
    ∧ (N ≤ (storeDecodeLen (std k1 k2)).getD 0 →
      try_append_double_map N std k1 k2 item = (.error (), std))
    ∧ (∀ (enc : T → List Nat) (l : List T) (x : T),
        stv = some (vecEncode enc l) → item = enc x → l.length < N →
        l.length < 2 ^ 32 →
        try_append_value N stv item = (.ok (), some (vecEncode enc (l ++ [x])))) := by
  refine ⟨?_, ?_, ?_, ?_, ?_, ?_, ?_⟩
  · intro h
    unfold try_append_value BoundedVec.bound
    rw [if_pos h]
  · intro h
    unfold try_append_value BoundedVec.bound
    rw [if_neg (by omega)]
  · intro h
    unfold try_append_map BoundedVec.bound
    rw [if_pos h]
    refine ⟨rfl, by simp, ?_⟩
    intro k hk
    simp [hk]
  · intro h
    unfold try_append_map BoundedVec.bound
    rw [if_neg (by omega)]
  · intro h
    unfold try_append_double_map BoundedVec.bound
    rw [if_pos h]
    refine ⟨rfl, by simp, ?_⟩
    intro j1 j2 hj
    simp [hj]
  · intro h
    unfold try_append_double_map BoundedVec.bound
    rw [if_neg (by omega)]
  · intro enc l x hst hitem hlN hl32
    subst hst
    subst hitem
    have hrt := compactDecode_compactEncode l.length hl32 ((l.map enc).flatten)
    unfold try_append_value storeDecodeLen appendRaw BoundedVec.bound vecEncode
    dsimp only
    rw [hrt]
    dsimp only [Option.getD]
    rw [if_pos hlN]
    simp [List.map_append, List.flatten_append]

/-- Claim C2, instantiated for the value variant: appending a one-byte
item to the stored encoding of a two-element sequence under bound three
succeeds and yields the stored encoding of the three-element sequence. -/
theorem claim_C2_witness :
    try_append_value 3 (some (vecEncode (fun n : Nat => [n]) [5, 6])) [7]
      = (.ok (), some (vecEncode (fun n : Nat => [n]) [5, 6, 7])) :=
  (@claim_C2_try_append Nat Nat Nat _ _ 3
      (some (vecEncode (fun n : Nat => [n]) [5, 6]))
      (fun _ => none) (fun _ _ => none) 0 0 [7]).2.2.2.2.2.2
    (fun n : Nat => [n]) [5, 6] 7 rfl rfl (by decide) (by decide)

/-- Claim C4 counterexample: the single byte `1` is a truncated two-byte
compact prefix, a decode fault; yet the value-facade `try_append` at
bound seven returns success — the undecodable count is treated exactly as
an absent value, count zero, instead of the fault being propagated to the
caller as an error. -/
theorem claim_C4_cex :
    compactDecode [1] = none
    ∧ (try_append_value 7 (some [1]) [9]).1 = .ok ()
    ∧ (try_append_value 7 (some [1]) [9]).1 = (try_append_value 7 none [9]).1 :=
  ⟨rfl, rfl, rfl⟩

/-- Claim C4 (amended): a malformed or truncated length prefix is
propagated as an error by the decode-length operation on encoded bytes;
the append facade, however, reads the count through the store's optional
capability, which yields `none` for an undecodable prefix just as for an
absent value, and the facade then treats that as count zero and proceeds
— at the facade a decode fault is not distinguished from absence. -/
theorem claim_C4_decode_fault_amended (bytes item : List Nat) (N : Nat)
    (hm : compactDecode bytes = none) (hN : 0 < N) :
    bvDecodeLength bytes = .error ()
    ∧ storeDecodeLen (some bytes) = none
    ∧ (try_append_value N (some bytes) item).1 = .ok ()
    ∧ (try_append_value N (some bytes) item).1
        = (try_append_value N none item).1 := by
  have h2 : storeDecodeLen (some bytes) = none := by
    unfold storeDecodeLen
    dsimp only
    rw [hm]
  have h3 : (try_append_value N (some bytes) item).1 = .ok () := by
    unfold try_append_value BoundedVec.bound
    rw [h2]
    rw [if_pos (by simpa using hN)]
  have h4 : (try_append_value N none item).1 = .ok () := by
    unfold try_append_value storeDecodeLen BoundedVec.bound
    rw [if_pos (by simpa using hN)]
  refine ⟨?_, h2, h3, h3.trans h4.symm⟩
  unfold bvDecodeLength vecDecodeLength
  rw [hm]

/-- Claim C4, instantiated at the truncated prefix consisting of the
single byte `1`, with bound seven. -/
theorem claim_C4_witness :
    bvDecodeLength [1] = .error ()
    ∧ storeDecodeLen (some [1]) = none
    ∧ (try_append_value 7 (some [1]) [9]).1 = .ok ()
    ∧ (try_append_value 7 (some [1]) [9]).1 = (try_append_value 7 none [9]).1 :=
  claim_C4_decode_fault_amended [1] [9] 7 rfl (by decide)
